import Mathlib

/-!
A verification development for the audio stream-processing core of this
repository (crate `audio`): the per-channel ring buffer (`SampleBuffer`),
the windowing layer (`Period`, `ChannelPeriod`, `PeriodBuffer`), the
spectral post-processing (`PolarFFT.unwrap_phase`, `PolarFFT.into_folded`),
the pipeline composition (`Chain`), the playback pull adapter
(`FrameReceiver.fill_buffer`) and the `Executor` message loop.

Modelling conventions:
* `f32` sample and phase values are embedded as exact rationals (`ℚ`);
  the float constant `PI` is embedded as the exact value of the `f32`
  constant `std::f32::consts::PI`, namely `13176795 / 4194304`.
* `usize` values are `ℕ`; subtractions that the source performs on
  in-range values use truncated `ℕ` subtraction.
* A Rust function that can `assert!`/`panic!`/`todo!` is embedded as an
  `Option` (or a dedicated result inductive) where `none` (or a `panic`
  constructor) is the abort outcome.
* `VecDeque` ring contents are embedded as a `List` in temporal order
  (front = oldest).  `as_slices` exposes some physical split of that list
  into two contiguous segments; theorems about `Period::get_channel`
  quantify over every such split.
* External collaborators (the `rustfft` execution plan together with the
  transcendental rectangular→polar conversion, and `f32::sqrt`) are taken
  as parameters of the embedding of the code that calls them.
-/

/-- Embeds `stream::input::Frame`: a batch of interleaved samples tagged with a
channel count and sample rate. -/
structure Frame where
  channels : ℕ
  sample_rate : ℕ
  samples : List ℚ
deriving DecidableEq

/-- Embeds `stream::buffer::SampleBuffer`: a set of per-channel ring buffers.
Each ring is the deque contents in temporal order (head = oldest). -/
structure SampleBuffer where
  max_len : ℕ
  channels : ℕ
  sample_rate : ℕ
  buffers : List (List ℚ)
  sample_count : ℕ
deriving DecidableEq

/-- Embeds `SampleBuffer::new`: per-channel rings start empty. -/
def SampleBuffer.new (channels sample_rate max_len : ℕ) : SampleBuffer :=
  { max_len := max_len
    channels := channels
    sample_rate := sample_rate
    buffers := List.replicate channels []
    sample_count := 0 }

/-- One `push_back` preceded by the conditional `pop_front` of
`SampleBuffer::push`: evict the oldest sample only when the ring is
exactly at `max_len`. -/
def ringPush (max_len : ℕ) (r : List ℚ) (s : ℚ) : List ℚ :=
  if r.length = max_len then r.tail ++ [s] else r ++ [s]

/-- The de-interleaving loop of `SampleBuffer::push`:
`for (i, s) in f.samples.iter().enumerate()` routes sample `i` to ring
`i % channels`.  `i` is the enumeration index of the current sample. -/
def deinterleave (channels max_len : ℕ) : ℕ → List ℚ → List (List ℚ) → List (List ℚ)
  | _, [], bufs => bufs
  | i, s :: rest, bufs =>
      deinterleave channels max_len (i + 1) rest
        (bufs.set (i % channels) (ringPush max_len ((bufs[i % channels]?).getD []) s))

/-- Embeds `SampleBuffer::push`.  `none` models an aborted call: the
channel-count and sample-rate asserts, the divisibility assert, and the
division-by-zero panic that `samples.len() % 0` would raise for a
zero-channel buffer. -/
def SampleBuffer.push (b : SampleBuffer) (f : Frame) : Option SampleBuffer :=
  if f.channels ≠ b.channels then none
  else if f.sample_rate ≠ b.sample_rate then none
  else if b.channels = 0 then none
  else if f.samples.length % b.channels ≠ 0 then none
  else some { b with
    sample_count := b.sample_count + f.samples.length / b.channels
    buffers := deinterleave b.channels b.max_len 0 f.samples b.buffers }

/-- Embeds `SampleBuffer::len`: `min(sample_count, max_len)`. -/
def SampleBuffer.len (b : SampleBuffer) : ℕ :=
  min b.sample_count b.max_len

/-- Embeds `SampleBuffer::oldest_sample_index`: `sample_count - len()`. -/
def SampleBuffer.oldest_sample_index (b : SampleBuffer) : ℕ :=
  b.sample_count - b.len

/-- Push a sequence of frames in order, aborting as soon as one push
aborts. -/
def SampleBuffer.pushMany (b : SampleBuffer) (fs : List Frame) : Option SampleBuffer :=
  fs.foldl (fun ob f => ob.bind fun b0 => b0.push f) (some b)

/-- The samples of one interleaved stream that belong to channel `c`:
those whose enumeration index `i` satisfies `i % channels = c`.  The
first argument is the index of the head sample. -/
def selectChannel (channels c : ℕ) : ℕ → List ℚ → List ℚ
  | _, [] => []
  | i, s :: rest =>
      if i % channels = c then s :: selectChannel channels c (i + 1) rest
      else selectChannel channels c (i + 1) rest

/-- The full temporal stream of samples routed to channel `c` by a
sequence of pushed frames. -/
def channelStream (channels c : ℕ) (fs : List Frame) : List ℚ :=
  fs.flatMap fun f => selectChannel channels c 0 f.samples

/-- The suffix of `l` of length `min n l.length`: the most recent `n`
samples of a temporal stream. -/
def takeLast (n : ℕ) (l : List ℚ) : List ℚ :=
  l.drop (l.length - n)

/-- Embeds `stream::input::Instant`: a point in time in seconds. -/
structure Instant where
  seconds : ℚ
deriving DecidableEq

/-- Embeds `Instant::from_sample_num`: `sample / rate`. -/
def Instant.from_sample_num (sample rate : ℕ) : Instant :=
  ⟨(sample : ℚ) / (rate : ℚ)⟩

/-- Embeds `stream::buffer::Period` (the buffer reference is passed separately
in this embedding): a window `[start_sample_num, start_sample_num+len)`
of logical sample indices. -/
structure Period where
  start_sample_num : ℕ
  len : ℕ
deriving DecidableEq

/-- Embeds `Period::start_time`. -/
def Period.start_time (p : Period) (rate : ℕ) : Instant :=
  Instant.from_sample_num p.start_sample_num rate

/-- Embeds `Period::end_time`. -/
def Period.end_time (p : Period) (rate : ℕ) : Instant :=
  Instant.from_sample_num (p.start_sample_num + p.len) rate

/-- Embeds `stream::buffer::ChannelPeriod`: one or two contiguous ring segments
covering the requested window for one channel. -/
structure ChannelPeriod where
  slices : List ℚ × List ℚ
  sample_rate : ℕ
  start_sample_num : ℕ
  len : ℕ
deriving DecidableEq

/-- Embeds `ChannelPeriod::iter` walks slice 0 then slice 1. -/
def ChannelPeriod.iterList (cp : ChannelPeriod) : List ℚ :=
  cp.slices.1 ++ cp.slices.2

/-- Rust slice indexing `&l[a..b]`: `none` models the panic when the
range is invalid or out of bounds. -/
def rustSlice (l : List ℚ) (a b : ℕ) : Option (List ℚ) :=
  if a ≤ b ∧ b ≤ l.length then some ((l.drop a).take (b - a)) else none

/-- The slice computation of `Period::get_channel`, parameterized by the
two physical ring segments returned by `as_slices`, the buffer's
`len()` and `sample_count`, and the period's window.  `none` models the
`checked_sub(..).unwrap()` panic (window aged out of the ring) and any
out-of-bounds slice panic. -/
def getChannelSlices (firstSeg secondSeg : List ℚ) (bufLen sampleCount startNum l : ℕ) :
    Option (List ℚ × List ℚ) :=
  let len_to_buffer_end := sampleCount - startNum
  if len_to_buffer_end ≤ bufLen then
    let start := bufLen - len_to_buffer_end
    let stop := start + l
    if start < firstSeg.length then
      if stop ≤ firstSeg.length then
        (rustSlice firstSeg start stop).map fun s => (s, [])
      else
        (rustSlice secondSeg 0 (stop - firstSeg.length)).map fun s2 =>
          (firstSeg.drop start, s2)
    else
      (rustSlice secondSeg (start - firstSeg.length) (stop - firstSeg.length)).map
        fun s => (s, [])
  else none

/-- Embeds `Period::get_channel` evaluated at a particular physical split of
channel `c`'s ring (the canonical unsplit representation is the pair
`(ring, [])`; the theorems show the result's iteration order does not
depend on the split). -/
def Period.get_channel_at (p : Period) (b : SampleBuffer) (firstSeg secondSeg : List ℚ) :
    Option ChannelPeriod :=
  (getChannelSlices firstSeg secondSeg b.len b.sample_count p.start_sample_num p.len).map
    fun sl =>
      { slices := sl
        sample_rate := b.sample_rate
        start_sample_num := p.start_sample_num
        len := p.len }

/-- Embeds `Period::get_channel` at the canonical (unsplit) representation of
channel `c`'s ring. -/
def Period.get_channel (p : Period) (b : SampleBuffer) (c : ℕ) : Option ChannelPeriod :=
  p.get_channel_at b ((b.buffers[c]?).getD []) []

/-- Embeds `Period::channels`: `get_channel` for every channel in order. -/
def Period.channelsOf (p : Period) (b : SampleBuffer) : Option (List ChannelPeriod) :=
  (List.range b.channels).mapM fun c => p.get_channel b c

/-- Embeds `stream::buffer::PeriodBuffer`. -/
structure PeriodBuffer where
  buffer : SampleBuffer
  period_len : ℕ
  period_stride : ℕ
  next_period_end : ℕ
deriving DecidableEq

/-- Embeds `PeriodBuffer::new`: `none` models the constructor assert
`buffer.sample_count <= buffer.max_len`. -/
def PeriodBuffer.new (buffer : SampleBuffer) (period_len period_stride : ℕ) :
    Option PeriodBuffer :=
  if buffer.sample_count ≤ buffer.max_len then
    some { buffer := buffer
           period_len := period_len
           period_stride := period_stride
           next_period_end := period_len }
  else none

/-- Embeds `PeriodBuffer::push`: forward to the sample buffer, then abort if the
start of the next pending period has been evicted from the retention
window. -/
def PeriodBuffer.push (pb : PeriodBuffer) (f : Frame) : Option PeriodBuffer :=
  (pb.buffer.push f).bind fun b =>
    if pb.next_period_end - pb.period_len < b.oldest_sample_index then none
    else some { pb with buffer := b }

/-- Embeds `PeriodBuffer::has_next`: `next_period_end <= sample_count`. -/
def PeriodBuffer.has_next (pb : PeriodBuffer) : Bool :=
  pb.next_period_end ≤ pb.buffer.sample_count

/-- Embeds `PeriodBuffer::next`: the period `[next_period_end - period_len,
next_period_end)` if available, advancing `next_period_end` by
`period_stride`. -/
def PeriodBuffer.next (pb : PeriodBuffer) : Option (Period × PeriodBuffer) :=
  if pb.has_next then
    some ({ start_sample_num := pb.next_period_end - pb.period_len, len := pb.period_len },
      { pb with next_period_end := pb.next_period_end + pb.period_stride })
  else none

/-- The exact rational value of the `f32` constant
`std::f32::consts::PI` (bit pattern `0x40490FDB`). -/
def piF : ℚ := 13176795 / 4194304

/-- Embeds `dsp::PolarFFT`: magnitude/phase pairs tagged with a sample rate. -/
structure PolarFFT where
  values : List (ℚ × ℚ)
  sample_rate : ℕ
deriving DecidableEq

/-- The loop of `PolarFFT::unwrap_phase`, carrying `prev_wrapped` (the
previous raw phase) and `prev` (the previous unwrapped phase); both are
initialized to `0`. -/
def unwrapGo (prev_wrapped prev : ℚ) : List (ℚ × ℚ) → List (ℚ × ℚ)
  | [] => []
  | c :: rest =>
      let d0 := c.2 - prev_wrapped
      let d := if piF < d0 then d0 - 2 * piF
               else if d0 < -piF then d0 + 2 * piF
               else d0
      let cur := prev + d
      (c.1, cur) :: unwrapGo c.2 cur rest

/-- Embeds `PolarFFT::unwrap_phase`. -/
def PolarFFT.unwrap_phase (p : PolarFFT) : PolarFFT :=
  { p with values := unwrapGo 0 0 p.values }

/-- Embeds `dsp::FoldedFFT`. -/
structure FoldedFFT where
  values : List (ℚ × ℚ)
  sample_rate : ℕ
  unfolded_length : ℕ
deriving DecidableEq

/-- The body of the normalization loop of `PolarFFT::into_folded` for the
bin at index `i`, where `n` is the unfolded window length and
`foldedLen` the number of retained bins. -/
def normFold (n foldedLen i : ℕ) (y : ℚ × ℚ) : ℚ × ℚ :=
  if i = 0 then (y.1 / (n : ℚ), y.2)
  else if i = foldedLen - 1 ∧ n % 2 = 0 then (y.1 / (n : ℚ), y.2)
  else (y.1 * (2 / (n : ℚ)), y.2)

/-- Embeds `for (i, y) in values.iter_mut().enumerate()`, starting at index
`i`. -/
def mapIdxFrom {α β : Type} (f : ℕ → α → β) : ℕ → List α → List β
  | _, [] => []
  | i, a :: rest => f i a :: mapIdxFrom f (i + 1) rest

/-- Embeds `PolarFFT::into_folded`: truncate to `n/2 + 1` bins, then normalize
magnitudes in place. -/
def PolarFFT.into_folded (p : PolarFFT) : FoldedFFT :=
  let n := p.values.length
  let truncated := p.values.take (n / 2 + 1)
  { values := mapIdxFrom (normFold n truncated.length) 0 truncated
    sample_rate := p.sample_rate
    unfolded_length := n }

/-- Embeds `dsp::rms` over a channel period: `sqrt(sum(x^2) / len)`.  The
transcendental `f32::sqrt` is a parameter. -/
def ChannelPeriod.rms (sqrtFn : ℚ → ℚ) (cp : ChannelPeriod) : ℚ :=
  sqrtFn ((cp.iterList.foldl (fun acc x => acc + x * x) 0) / (cp.len : ℚ))

/-- Embeds `output::FrameReceiverError`. -/
inductive FrameReceiverError where
  | EndOfStream
deriving DecidableEq

/-- Embeds `output::FrameReceiver`.  The `async_channel::Receiver` is embedded
as the list of pending frames plus a closed flag: `try_recv` dequeues
the head, reports `Empty` when the list is empty and `closed = false`,
and `Closed` when the list is empty and `closed = true`. -/
structure FrameReceiver where
  channels : ℕ
  sample_rate : ℕ
  pending : List Frame
  closed : Bool
  cur_frame : Option Frame
  cur_sample : Option ℕ
deriving DecidableEq

/-- Result of `FrameReceiver::next_slice`: `panics` models an assertion
failure, `err` the `Err` return, `noneAvail` the `Ok(None)` return, and
`got` the `Ok(Some(slice))` return together with the updated receiver. -/
inductive SliceResult where
  | panics
  | err (e : FrameReceiverError)
  | noneAvail
  | got (s : List ℚ) (st : FrameReceiver)
deriving DecidableEq

/-- Embeds `FrameReceiver::next_slice_from_current`: take up to `max_len`
samples from the current frame starting at `cur_sample`, updating
`cur_sample` (cleared at end of frame).  `panics` models both the
`expect` on a missing current frame and the `assert!(start < end)`. -/
def FrameReceiver.next_slice_from_current (st : FrameReceiver) (cur_sample max_len : ℕ) :
    SliceResult :=
  match st.cur_frame with
  | none => SliceResult.panics
  | some frame =>
      let start := cur_sample
      let stop := min (start + max_len) frame.samples.length
      if start < stop then
        SliceResult.got ((frame.samples.drop start).take (stop - start))
          { st with cur_sample := if stop < frame.samples.length then some stop else none }
      else SliceResult.panics

/-- Embeds `FrameReceiver::next_slice`: finish the partially-consumed current
frame first, otherwise try to dequeue the next frame (asserting its
configuration matches), reporting `noneAvail` on an empty channel and
`err EndOfStream` on a closed one. -/
def FrameReceiver.next_slice (st : FrameReceiver) (max_len : ℕ) : SliceResult :=
  match st.cur_sample with
  | some cur => st.next_slice_from_current cur max_len
  | none =>
      match st.pending with
      | next :: rest =>
          if next.channels ≠ st.channels then SliceResult.panics
          else if next.sample_rate ≠ st.sample_rate then SliceResult.panics
          else
            FrameReceiver.next_slice_from_current
              { st with pending := rest, cur_frame := some next, cur_sample := some 0 }
              0 max_len
      | [] => if st.closed then SliceResult.err FrameReceiverError.EndOfStream
              else SliceResult.noneAvail

/-- Result of `FrameReceiver::fill_buffer`: the `ok` payload is the list
of samples written to the destination, in order. -/
inductive FillResult where
  | panics
  | err (e : FrameReceiverError)
  | ok (written : List ℚ) (st : FrameReceiver)
deriving DecidableEq

/-- The `while satisfied < buf.len()` loop of
`FrameReceiver::fill_buffer`; `space` is the remaining room in the
destination buffer.  Each successful slice is non-empty, so `space + 1`
units of fuel always suffice. -/
def fillAux : ℕ → FrameReceiver → ℕ → FillResult
  | 0, _, _ => FillResult.panics
  | fuel + 1, st, space =>
      if space = 0 then FillResult.ok [] st
      else
        match st.next_slice space with
        | SliceResult.panics => FillResult.panics
        | SliceResult.err e => FillResult.err e
        | SliceResult.noneAvail => FillResult.ok [] st
        | SliceResult.got s st' =>
            match fillAux fuel st' (space - s.length) with
            | FillResult.ok w st'' => FillResult.ok (s ++ w) st''
            | r => r

/-- Embeds `FrameReceiver::fill_buffer` on a destination of length `space`. -/
def FrameReceiver.fill_buffer (st : FrameReceiver) (space : ℕ) : FillResult :=
  fillAux (space + 1) st space

/-- The samples currently available to `fill_buffer` without blocking,
in stream order: the unconsumed remainder of the current frame followed
by the queued frames. -/
def FrameReceiver.availStream (st : FrameReceiver) : List ℚ :=
  (match st.cur_frame, st.cur_sample with
   | some f, some i => f.samples.drop i
   | _, _ => []) ++ st.pending.flatMap (fun f => f.samples)

/-- The receiver invariant maintained by `next_slice`: a set `cur_sample`
points strictly inside the current frame, and every queued frame is
non-empty with matching configuration. -/
def FrameReceiver.StateOK (st : FrameReceiver) : Prop :=
  (∀ i, st.cur_sample = some i → ∃ f, st.cur_frame = some f ∧ i < f.samples.length) ∧
  (∀ f ∈ st.pending, f.samples ≠ [] ∧ f.channels = st.channels ∧ f.sample_rate = st.sample_rate)

/-- Embeds `pipeline::Step`: a stateful transform whose `process` consumes one
input and yields an ordered finite sequence of outputs (the
`IntoIterator` of the associated `Result` type, embedded as a list),
with explicit state passing for `&mut self`. -/
structure StepM (σ α β : Type) where
  process : σ → α → σ × List β

/-- Embeds `pipeline::Identity`: a step that outputs its input
(`Some(input)`, i.e. the one-element sequence). -/
def IdentityStep (α : Type) : StepM Unit α α :=
  ⟨fun s a => (s, [a])⟩

/-- Embeds `pipeline::ChainResult`: the iterator state returned by
`Chain::process` — the remaining intermediate values of the first step,
the second step, and the not-yet-exhausted current output sequence of
the second step. -/
structure ChainResult (σ₂ β γ : Type) where
  first_res : List β
  second_step : StepM σ₂ β γ
  second_state : σ₂
  second_res : Option (List γ)

/-- Result of one `Iterator::next` call on a `ChainResult`: `panics`
models a `panic!`-family abort, `done` is `None`, `yielded` is
`Some(item)` with the updated iterator. -/
inductive IterResult (σ₂ β γ : Type) where
  | panics
  | done
  | yielded (x : γ) (rest : ChainResult σ₂ β γ)

/-- Embeds `ChainResult::next` as written in the source: its body is `todo!()`,
so every call panics unconditionally. -/
def ChainResult.next {σ₂ β γ : Type} (_ : ChainResult σ₂ β γ) : IterResult σ₂ β γ :=
  IterResult.panics

/-- Embeds `Chain::process`: run the first step, capture its output sequence as
the intermediate iterator of a fresh `ChainResult` (with the second
step's output sequence not yet started). -/
def Chain.process {σ₁ σ₂ α β γ : Type} (first : StepM σ₁ α β) (second : StepM σ₂ β γ)
    (s₁ : σ₁) (s₂ : σ₂) (input : α) : σ₁ × ChainResult σ₂ β γ :=
  let r := first.process s₁ input
  (r.1, { first_res := r.2, second_step := second, second_state := s₂, second_res := none })

/-- The sequence the specification claims a chain yields for one input:
feed the input through the first step, feed each intermediate value
through the second step in order, and concatenate the second step's
output sequences.  (Modelled from the spec for comparison with the
source's `ChainResult` iterator.) -/
def chainSpecOutputs {σ₁ σ₂ α β γ : Type} (first : StepM σ₁ α β) (second : StepM σ₂ β γ)
    (s₁ : σ₁) (s₂ : σ₂) (input : α) : List γ :=
  let r := first.process s₁ input
  (r.2.foldl (fun acc b =>
    let r2 := second.process acc.1 b
    (r2.1, acc.2 ++ r2.2)) (s₂, [])).2

/-- Embeds `RMSLevels` (crate root): per-channel full-scale RMS values tagged
with a time.  The source doc comment calls `time` the end time of the
measurement period. -/
structure RMSLevels where
  time : Instant
  values : List ℚ
deriving DecidableEq

/-- Embeds `transform::FFTResult`. -/
structure FFTResult where
  end_time : Instant
  width : ℕ
  sample_rate : ℕ
  ffts : List FoldedFFT
deriving DecidableEq

/-- The `Message` enum (crate root). -/
inductive Message where
  | AudioStreamClosed
  | FFTResult (r : FFTResult)
  | RMSLevels (r : RMSLevels)
deriving DecidableEq

/-- Embeds `transform::FFT::transform`: asserts the configured width matches
the period length, then computes the folded FFT of every channel.
`polarFn` stands for the external `rustfft` forward plan composed with
the rectangular→polar conversion (both outside this embedding: the
transform is an injected strategy object and polar conversion is
transcendental). -/
def FFT.transform (polarFn : List ℚ → List (ℚ × ℚ)) (width : ℕ) (b : SampleBuffer)
    (p : Period) : Option FFTResult :=
  if width ≠ p.len then none
  else
    (p.channelsOf b).map fun chans =>
      { end_time := p.end_time b.sample_rate
        width := width
        sample_rate := b.sample_rate
        ffts := chans.map fun ch =>
          (PolarFFT.mk (polarFn ch.iterList) b.sample_rate).into_folded }

/-- The `while let Some(p) = self.periods.next()` loop of
`Executor::process`: for each available period push an `FFTResult`
message and then an `RMSLevels` message carrying `p.start_time()`.
Fuel bounds the loop (with a positive stride, `sample_count + 1` units
always suffice); the messages produced are correct regardless of the
fuel. -/
def drainLoop (polarFn : List ℚ → List (ℚ × ℚ)) (sqrtFn : ℚ → ℚ) (width : ℕ) :
    ℕ → PeriodBuffer → List Message → Option (PeriodBuffer × List Message)
  | 0, pb, acc => some (pb, acc)
  | fuel + 1, pb, acc =>
      match pb.next with
      | none => some (pb, acc)
      | some (p, pb') =>
          match FFT.transform polarFn width pb'.buffer p, p.channelsOf pb'.buffer with
          | some fftRes, some chans =>
              drainLoop polarFn sqrtFn width fuel pb'
                (acc ++ [Message.FFTResult fftRes,
                  Message.RMSLevels
                    { time := p.start_time pb'.buffer.sample_rate
                      values := chans.map fun c => c.rms sqrtFn }])
          | _, _ => none

/-- Embeds `Executor::process`: push the frame into the period buffer (the WAV
debug sink is an external collaborator with no effect on the produced
messages) and drain every newly available period. -/
def Executor.process (polarFn : List ℚ → List (ℚ × ℚ)) (sqrtFn : ℚ → ℚ) (width : ℕ)
    (pb : PeriodBuffer) (f : Frame) : Option (PeriodBuffer × List Message) :=
  (pb.push f).bind fun pb' =>
    drainLoop polarFn sqrtFn width (pb'.buffer.sample_count + 1) pb' []

/-- The windowed samples of channel `c` of a period: `get_channel`
followed by `ChannelPeriod::iter`. -/
def periodWindow (b : SampleBuffer) (p : Period) (c : ℕ) : Option (List ℚ) :=
  (p.get_channel b c).map ChannelPeriod.iterList

/-- An unwrapped phase sequence relative to a previous phase `pv`:
consecutive phases never jump by more than the (f32) π.  This is the
state of affairs `unwrap_phase` establishes on outputs whose inputs came
from `atan2` (range `(-π, π]`), and the condition under which a second
run reproduces its input. -/
def chainOk (pv : ℚ) : List (ℚ × ℚ) → Prop
  | [] => True
  | c :: rest => -piF ≤ c.2 - pv ∧ c.2 - pv ≤ piF ∧ chainOk c.2 rest

/-- Scenario state: `PeriodBuffer(len=4, stride=2)` over a fresh
1-channel buffer, fed the frame `[1..7]`. -/
def scenarioPB : Option PeriodBuffer :=
  (PeriodBuffer.new (SampleBuffer.new 1 44100 100) 4 2).bind fun pb =>
    pb.push ⟨1, 44100, [1, 2, 3, 4, 5, 6, 7]⟩

/-- Scenario: first `next()` call. -/
def scenarioN1 : Option (Period × PeriodBuffer) := scenarioPB.bind PeriodBuffer.next

/-- Scenario: second `next()` call. -/
def scenarioN2 : Option (Period × PeriodBuffer) :=
  (scenarioN1.map Prod.snd).bind PeriodBuffer.next

/-- Scenario: third `next()` call (no period yet). -/
def scenarioN3 : Option (Period × PeriodBuffer) :=
  (scenarioN2.map Prod.snd).bind PeriodBuffer.next

/-- Scenario: push one more sample (`8`) after the third call returned
nothing (a failed `next()` leaves the buffer unchanged). -/
def scenarioPB2 : Option PeriodBuffer :=
  (scenarioN2.map Prod.snd).bind fun pb => pb.push ⟨1, 44100, [8]⟩

/-- Scenario: fourth `next()` call, after the extra sample. -/
def scenarioN4 : Option (Period × PeriodBuffer) := scenarioPB2.bind PeriodBuffer.next

/-- Indexing a `mapIdxFrom`: element `i` of the result is `f` applied at
index `k + i`. -/
theorem mapIdxFrom_getElem {α β : Type} (f : ℕ → α → β) :
    ∀ (l : List α) (k i : ℕ), (mapIdxFrom f k l)[i]? = (l[i]?).map (f (k + i))
  | [], _, _ => by simp [mapIdxFrom]
  | _ :: _, _, 0 => by simp [mapIdxFrom]
  | _ :: rest, k, i + 1 => by
      have h := mapIdxFrom_getElem f rest (k + 1) i
      simp [mapIdxFrom, h]
      ring_nf

/-- A `mapIdxFrom` has the length of its input. -/
theorem mapIdxFrom_length {α β : Type} (f : ℕ → α → β) :
    ∀ (l : List α) (k : ℕ), (mapIdxFrom f k l).length = l.length
  | [], _ => rfl
  | _ :: rest, k => by simp [mapIdxFrom, mapIdxFrom_length f rest (k + 1)]

/-- C6: the specification claims `Chain(first, second)` yields the
concatenation of `second`'s outputs over `first`'s intermediate values;
in the source `ChainResult::next` is `todo!()`, so the very first
iteration of a chain's result panics and the chain can never yield
anything.  At the concrete input: chaining two `Identity` steps on
input `3` — the intended semantics (modelled from the spec as
`chainSpecOutputs`) yields `[3]`, but the source iterator panics. -/
theorem chainResult_next_is_todo :
    (Chain.process (IdentityStep ℚ) (IdentityStep ℚ) () () 3).2.next =
      IterResult.panics
    ∧ chainSpecOutputs (IdentityStep ℚ) (IdentityStep ℚ) () () 3 = [3] :=
  ⟨rfl, rfl⟩

/-- C4: `into_folded` keeps `unfolded_length = n`, retains the first
`n/2 + 1` bins (3 bins both for `n = 4` and `n = 5`), leaves phases
unchanged, and normalizes magnitudes: bin 0 divides by `n`, the last
retained bin (index `n/2`) divides by `n` when `n` is even, and every
other retained bin multiplies by `2/n`. -/
theorem into_folded_spec (p : PolarFFT) :
    p.into_folded.unfolded_length = p.values.length
    ∧ p.into_folded.values.length = min (p.values.length / 2 + 1) p.values.length
    ∧ (∀ i : ℕ, p.into_folded.values[i]? =
        if i < p.values.length / 2 + 1 then
          (p.values[i]?).map fun y =>
            if i = 0 then (y.1 / (p.values.length : ℚ), y.2)
            else if i = p.values.length / 2 ∧ p.values.length % 2 = 0 then
              (y.1 / (p.values.length : ℚ), y.2)
            else (y.1 * (2 / (p.values.length : ℚ)), y.2)
        else none)
    ∧ (PolarFFT.mk [(1, 5), (2, 6), (3, 7), (4, 8)] 42).into_folded.values.length = 3
    ∧ (PolarFFT.mk [(1, 5), (2, 6), (3, 7), (4, 8), (5, 9)] 42).into_folded.values.length = 3 := by
  refine ⟨rfl, ?_, ?_, by decide, by decide⟩
  · simp [PolarFFT.into_folded, mapIdxFrom_length, List.length_take]
  · intro i
    have hlen : (p.values.take (p.values.length / 2 + 1)).length =
        min (p.values.length / 2 + 1) p.values.length := List.length_take _ _
    simp only [PolarFFT.into_folded, mapIdxFrom_getElem, List.getElem?_take, Nat.zero_add]
    by_cases hi : i < p.values.length / 2 + 1
    · rw [if_pos hi, if_pos hi]
      cases hv : p.values[i]? with
      | none => rfl
      | some y =>
          have hin : i < p.values.length := by
            by_contra hc
            rw [List.getElem?_eq_none (by omega)] at hv
            exact Option.noConfusion hv
          have hfl : (p.values.take (p.values.length / 2 + 1)).length - 1 =
              p.values.length / 2 := by
            rw [hlen]; omega
          simp only [Option.map_some', normFold, hfl]
    · rw [if_neg hi, if_neg hi]
      rfl

/-- C3: `has_next()` is true iff `next_period_end <= sample_count`;
`next()` returns the period `[next_period_end - period_len,
next_period_end)` and advances `next_period_end` by `period_stride`
exactly when `has_next()` holds, and `None` otherwise; consequently a
`PeriodBuffer(len=4, stride=2)` fed `[1..7]` yields `[1,2,3,4]`, then
`[3,4,5,6]`, then nothing, and after one more sample (`8`) yields
`[5,6,7,8]`. -/
theorem period_stream_spec (pb : PeriodBuffer) :
    (pb.has_next = true ↔ pb.next_period_end ≤ pb.buffer.sample_count)
    ∧ (pb.next =
        if pb.next_period_end ≤ pb.buffer.sample_count then
          some ({ start_sample_num := pb.next_period_end - pb.period_len,
                  len := pb.period_len },
            { pb with next_period_end := pb.next_period_end + pb.period_stride })
        else none)
    ∧ scenarioN1.bind (fun pr => periodWindow pr.2.buffer pr.1 0) = some [1, 2, 3, 4]
    ∧ scenarioN2.bind (fun pr => periodWindow pr.2.buffer pr.1 0) = some [3, 4, 5, 6]
    ∧ scenarioN3 = none
    ∧ scenarioN4.bind (fun pr => periodWindow pr.2.buffer pr.1 0) = some [5, 6, 7, 8] := by
  refine ⟨by simp [PeriodBuffer.has_next], ?_, by decide, by decide, by decide, by decide⟩
  by_cases h : pb.next_period_end ≤ pb.buffer.sample_count
  · rw [if_pos h]
    simp [PeriodBuffer.next, PeriodBuffer.has_next, h]
  · rw [if_neg h]
    simp [PeriodBuffer.next, PeriodBuffer.has_next, h]

/-- C7: configuration-invariant violations abort instead of returning a
recoverable error: `SampleBuffer::push` aborts on any channel-count or
sample-rate mismatch and succeeds under the matching-configuration
preconditions; `PeriodBuffer::push` aborts exactly when, after
forwarding the frame, the next pending period's start has fallen before
the oldest retained sample index, and succeeds under the retention
precondition. -/
theorem config_violations_fail_fast :
    (∀ (b : SampleBuffer) (f : Frame),
        f.channels ≠ b.channels ∨ f.sample_rate ≠ b.sample_rate → b.push f = none)
    ∧ (∀ (b : SampleBuffer) (f : Frame),
        f.channels = b.channels → f.sample_rate = b.sample_rate → 0 < b.channels →
        f.samples.length % b.channels = 0 → ∃ b', b.push f = some b')
    ∧ (∀ (pb : PeriodBuffer) (f : Frame) (b' : SampleBuffer),
        pb.buffer.push f = some b' →
        (pb.push f = none ↔ pb.next_period_end - pb.period_len < b'.oldest_sample_index))
    ∧ (∀ (pb : PeriodBuffer) (f : Frame) (b' : SampleBuffer),
        pb.buffer.push f = some b' →
        b'.oldest_sample_index ≤ pb.next_period_end - pb.period_len →
        pb.push f = some { pb with buffer := b' }) := by
  refine ⟨?_, ?_, ?_, ?_⟩
  · intro b f h
    unfold SampleBuffer.push
    rcases h with h | h
    · rw [if_pos h]
    · by_cases hc : f.channels ≠ b.channels
      · rw [if_pos hc]
      · rw [if_neg hc, if_pos h]
  · intro b f h1 h2 hC hdiv
    unfold SampleBuffer.push
    rw [if_neg (by simp [h1]), if_neg (by simp [h2]), if_neg (by omega),
      if_neg (by simp [hdiv])]
    exact ⟨_, rfl⟩
  · intro pb f b' h
    have hpush : pb.push f =
        if pb.next_period_end - pb.period_len < b'.oldest_sample_index then none
        else some { pb with buffer := b' } := by
      simp [PeriodBuffer.push, h]
    rw [hpush]
    by_cases hlt : pb.next_period_end - pb.period_len < b'.oldest_sample_index
    · simp [hlt]
    · simp [hlt]
  · intro pb f b' h hle
    simp [PeriodBuffer.push, h, if_neg (Nat.not_lt.mpr hle)]

/-- Witness for C7 at concrete inputs: a 1-channel frame pushed into a
2-channel buffer aborts; a matching push succeeds; a `PeriodBuffer`
over a 2-sample retention window aborts when 5 samples arrive before
any `next()`, and succeeds within the retention window. -/
theorem config_violations_fail_fast_witness :
    (SampleBuffer.new 2 44100 4).push ⟨1, 44100, [1]⟩ = none
    ∧ (∃ b', (SampleBuffer.new 2 44100 4).push ⟨2, 44100, [1, 2]⟩ = some b')
    ∧ (PeriodBuffer.mk (SampleBuffer.new 1 44100 2) 4 4 4).push
        ⟨1, 44100, [1, 2, 3, 4, 5]⟩ = none
    ∧ (PeriodBuffer.mk (SampleBuffer.new 1 44100 100) 4 4 4).push
        ⟨1, 44100, [1, 2, 3, 4]⟩ =
      some { buffer := ⟨100, 1, 44100, [[1, 2, 3, 4]], 4⟩, period_len := 4,
             period_stride := 4, next_period_end := 4 } := by
  refine ⟨config_violations_fail_fast.1 _ _ (Or.inl (by decide)),
    config_violations_fail_fast.2.1 _ _ (by decide) (by decide) (by decide) (by decide),
    (config_violations_fail_fast.2.2.1 _ _ ⟨2, 1, 44100, [[4, 5]], 5⟩ (by decide)).mpr
      (by decide),
    ?_⟩
  have h := config_violations_fail_fast.2.2.2
    (PeriodBuffer.mk (SampleBuffer.new 1 44100 100) 4 4 4) ⟨1, 44100, [1, 2, 3, 4]⟩
    ⟨100, 1, 44100, [[1, 2, 3, 4]], 4⟩ (by decide) (by decide)
  exact h

/-- The embedded f32 π is positive. -/
theorem piF_pos : 0 < piF := by norm_num [piF]

/-- Lemma A for phase unwrapping: when every raw phase lies in
`(-π, π]` (the `atan2` range) and the previous wrapped phase lies in
`[-π, π]`, the output of the unwrap loop is a `chainOk` sequence:
consecutive unwrapped phases differ by at most π in absolute value. -/
theorem chainOk_unwrapGo : ∀ (l : List (ℚ × ℚ)) (pw pv : ℚ), -piF ≤ pw → pw ≤ piF →
    (∀ v ∈ l, -piF < v.2 ∧ v.2 ≤ piF) → chainOk pv (unwrapGo pw pv l)
  | [], _, _, _, _, _ => trivial
  | c :: rest, pw, pv, h1, h2, h3 => by
      have hc := h3 c (by simp)
      have hrest : ∀ v ∈ rest, -piF < v.2 ∧ v.2 ≤ piF := fun v hv => h3 v (by simp [hv])
      have hpi : 0 < piF := piF_pos
      simp only [unwrapGo]
      split_ifs with ha hb
      · exact ⟨by simp; linarith [hc.1, hc.2], by simp; linarith [hc.1, hc.2],
          chainOk_unwrapGo rest c.2 _ (by linarith [hc.1]) hc.2 hrest⟩
      · exact ⟨by simp; linarith [hc.1, hc.2], by simp; linarith [hc.1, hc.2],
          chainOk_unwrapGo rest c.2 _ (by linarith [hc.1]) hc.2 hrest⟩
      · exact ⟨by simp; linarith [hc.1, hc.2], by simp; linarith [hc.1, hc.2],
          chainOk_unwrapGo rest c.2 _ (by linarith [hc.1]) hc.2 hrest⟩

/-- Lemma B for phase unwrapping: on a `chainOk` sequence (no jump
exceeds π) the unwrap loop is the identity when started with
`prev_wrapped = prev = pv`. -/
theorem unwrapGo_fixed : ∀ (l : List (ℚ × ℚ)) (pv : ℚ), chainOk pv l → unwrapGo pv pv l = l
  | [], _, _ => rfl
  | c :: rest, pv, h => by
      have h' : (-piF ≤ c.2 - pv ∧ c.2 - pv ≤ piF ∧ chainOk c.2 rest) := h
      obtain ⟨h1, h2, h3⟩ := h'
      have hpi : 0 < piF := piF_pos
      simp only [unwrapGo]
      rw [if_neg (by linarith), if_neg (by linarith)]
      have hcur : pv + (c.2 - pv) = c.2 := by ring
      rw [hcur, unwrapGo_fixed rest c.2 h3]

/-- C5 (amended): `unwrap_phase` is idempotent on every `PolarFFT` whose
raw phases lie in the `atan2` range `(-π, π]` — in particular on every
output of `into_polar`.  (It is not idempotent on arbitrary phase
values; see the counterexample.) -/
theorem unwrap_phase_idempotent (p : PolarFFT)
    (h : ∀ v ∈ p.values, -piF < v.2 ∧ v.2 ≤ piF) :
    p.unwrap_phase.unwrap_phase = p.unwrap_phase := by
  have hpi := piF_pos
  have hA : chainOk 0 (unwrapGo 0 0 p.values) :=
    chainOk_unwrapGo p.values 0 0 (by linarith) (by linarith) h
  have hB := unwrapGo_fixed (unwrapGo 0 0 p.values) 0 hA
  simp [PolarFFT.unwrap_phase, hB]

/-- C5 counterexample: the claim "for every PolarFFT `p`,
`unwrap(unwrap(p)) == unwrap(p)`" fails at the single-bin spectrum with
phase `4π`: the first unwrap maps it to `2π`, the second to `0` (the
exact same arithmetic occurs in `f32`, where these multiples of π are
computed exactly). -/
theorem unwrap_phase_not_universally_idempotent :
    PolarFFT.unwrap_phase (PolarFFT.unwrap_phase ⟨[(1, 4 * piF)], 42⟩) ≠
      PolarFFT.unwrap_phase ⟨[(1, 4 * piF)], 42⟩ := by
  have hpi := piF_pos
  have g1 : unwrapGo 0 0 [((1 : ℚ), 4 * piF)] = [(1, 2 * piF)] := by
    simp only [unwrapGo]
    rw [if_pos (show piF < (((1 : ℚ), 4 * piF)).2 - 0 by simp; linarith)]
    norm_num
    ring
  have g2 : unwrapGo 0 0 [((1 : ℚ), 2 * piF)] = [(1, 0)] := by
    simp only [unwrapGo]
    rw [if_pos (show piF < (((1 : ℚ), 2 * piF)).2 - 0 by simp; linarith)]
    norm_num
  have e1 : PolarFFT.unwrap_phase ⟨[(1, 4 * piF)], 42⟩ = ⟨[(1, 2 * piF)], 42⟩ := by
    simp [PolarFFT.unwrap_phase, g1]
  have e2 : PolarFFT.unwrap_phase ⟨[(1, 2 * piF)], 42⟩ = ⟨[(1, 0)], 42⟩ := by
    simp [PolarFFT.unwrap_phase, g2]
  rw [e1, e2]
  intro h
  have h2 := congrArg PolarFFT.values h
  simp only [List.cons.injEq, Prod.mk.injEq] at h2
  linarith [h2.1.2]

/-- Witness for C5 at a concrete input whose phases `1` and `-3` lie in
`(-π, π]`. -/
theorem unwrap_phase_idempotent_witness :
    (∀ v ∈ (PolarFFT.mk [(1, 1), (1, -3)] 7).values, -piF < v.2 ∧ v.2 ≤ piF)
    ∧ (PolarFFT.mk [(1, 1), (1, -3)] 7).unwrap_phase.unwrap_phase =
        (PolarFFT.mk [(1, 1), (1, -3)] 7).unwrap_phase :=
  ⟨by norm_num [piF], unwrap_phase_idempotent _ (by norm_num [piF])⟩

/-- Embeds `takeLast` keeps `min n l.length` elements. -/
theorem takeLast_length (n : ℕ) (l : List ℚ) : (takeLast n l).length = min n l.length := by
  simp [takeLast]
  omega

/-- One ring push on a ring holding the last `m` elements of stream `p`
yields the last `m` elements of `p ++ [s]` (for `m ≥ 1`). -/
theorem ringPush_takeLast {m : ℕ} (hm : 1 ≤ m) (p : List ℚ) (s : ℚ) :
    ringPush m (takeLast m p) s = takeLast m (p ++ [s]) := by
  unfold ringPush takeLast
  by_cases h : m ≤ p.length
  · have hc : (p.drop (p.length - m)).length = m := by simp; omega
    rw [if_pos hc]
    have h1 : (p ++ [s]).length - m = (p.length - m) + 1 := by simp; omega
    rw [h1, List.tail_drop]
    have h2 : p.length - m + 1 ≤ p.length := by omega
    rw [List.drop_append_of_le_length h2]
  · push_neg at h
    have h0 : p.length - m = 0 := by omega
    have hc : ¬ (p.drop (p.length - m)).length = m := by simp; omega
    rw [if_neg hc, h0, List.drop_zero]
    have h1 : (p ++ [s]).length - m = 0 := by simp; omega
    rw [h1, List.drop_zero]

/-- Folding ring pushes over a sample batch: the ring tracks the last
`m` elements of the growing stream. -/
theorem foldl_ringPush {m : ℕ} (hm : 1 ≤ m) :
    ∀ (xs p : List ℚ), List.foldl (ringPush m) (takeLast m p) xs = takeLast m (p ++ xs)
  | [], p => by simp
  | x :: xs, p => by
      rw [List.foldl_cons, ringPush_takeLast hm p x, foldl_ringPush hm xs (p ++ [x])]
      simp

/-- De-interleaving does not change the number of channel rings. -/
theorem deinterleave_length (C m : ℕ) :
    ∀ (samples : List ℚ) (i : ℕ) (bufs : List (List ℚ)),
      (deinterleave C m i samples bufs).length = bufs.length
  | [], _, _ => rfl
  | s :: rest, i, bufs => by
      simp only [deinterleave]
      rw [deinterleave_length C m rest (i + 1) _, List.length_set]

/-- Projecting one channel out of the de-interleaving loop: ring `c`
receives exactly the ring pushes of the samples whose enumeration index
is congruent to `c` modulo the channel count. -/
theorem deinterleave_getElem {C m : ℕ} (hC : 0 < C) :
    ∀ (samples : List ℚ) (i : ℕ) (bufs : List (List ℚ)), bufs.length = C →
      ∀ c, c < C →
      (((deinterleave C m i samples bufs)[c]?).getD []) =
        List.foldl (ringPush m) ((bufs[c]?).getD []) (selectChannel C c i samples)
  | [], i, bufs, hlen, c, hc => by simp [deinterleave, selectChannel]
  | s :: rest, i, bufs, hlen, c, hc => by
      simp only [deinterleave, selectChannel]
      have hmod : i % C < C := Nat.mod_lt _ hC
      rw [deinterleave_getElem hC rest (i + 1) _ (by rw [List.length_set]; exact hlen) c hc]
      by_cases he : i % C = c
      · rw [if_pos he, List.foldl_cons]
        congr 1
        rw [List.getElem?_set, if_pos he, if_pos (by rw [hlen]; exact hmod)]
        simp [he]
      · rw [if_neg he]
        congr 1
        rw [List.getElem?_set, if_neg he]

/-- A configuration-matching push succeeds and de-interleaves. -/
theorem push_eq_some (b : SampleBuffer) (f : Frame) (hC : 0 < b.channels)
    (h1 : f.channels = b.channels) (h2 : f.sample_rate = b.sample_rate)
    (h3 : f.samples.length % b.channels = 0) :
    b.push f = some { b with
      sample_count := b.sample_count + f.samples.length / b.channels
      buffers := deinterleave b.channels b.max_len 0 f.samples b.buffers } := by
  unfold SampleBuffer.push
  rw [if_neg (by simp [h1]), if_neg (by simp [h2]), if_neg (by omega), if_neg (by simp [h3])]

/-- Invariant carried across a sequence of pushes: each channel ring is
the `max_len`-suffix of the per-channel stream seen so far. -/
theorem pushMany_ring {maxLen C rate : ℕ} (hm : 1 ≤ maxLen) (hC : 0 < C) :
    ∀ (fs : List Frame) (b : SampleBuffer) (prev : ℕ → List ℚ),
      b.channels = C → b.sample_rate = rate → b.max_len = maxLen →
      b.buffers.length = C →
      (∀ c, c < C → ((b.buffers[c]?).getD []) = takeLast maxLen (prev c)) →
      (∀ f ∈ fs, f.channels = C ∧ f.sample_rate = rate ∧ f.samples.length % C = 0) →
      ∃ b', b.pushMany fs = some b' ∧ b'.channels = C ∧ b'.buffers.length = C ∧
        ∀ c, c < C → ((b'.buffers[c]?).getD []) =
          takeLast maxLen (prev c ++ channelStream C c fs)
  | [], b, prev, hbc, hbr, hbm, hblen, hring, _ =>
      ⟨b, rfl, hbc, hblen, fun c hc => by
        rw [hring c hc]
        simp [channelStream]⟩
  | f :: fs, b, prev, hbc, hbr, hbm, hblen, hring, hfs => by
      obtain ⟨hf1, hf2, hf3⟩ := hfs f (by simp)
      have hpush := push_eq_some b f (hbc ▸ hC) (hf1.trans hbc.symm) (hf2.trans hbr.symm)
        (by rw [hbc]; exact hf3)
      have hstep : b.pushMany (f :: fs) =
          SampleBuffer.pushMany { b with
            sample_count := b.sample_count + f.samples.length / b.channels
            buffers := deinterleave b.channels b.max_len 0 f.samples b.buffers } fs := by
        simp [SampleBuffer.pushMany, hpush]
      rw [hstep]
      have hres := pushMany_ring hm hC fs
        { b with
          sample_count := b.sample_count + f.samples.length / b.channels
          buffers := deinterleave b.channels b.max_len 0 f.samples b.buffers }
        (fun c => prev c ++ selectChannel C c 0 f.samples)
        hbc hbr hbm
        (by simp only []; rw [deinterleave_length, hblen])
        (fun c hc => by
          simp only []
          rw [hbc, hbm] at *
          rw [deinterleave_getElem hC f.samples 0 b.buffers hblen c hc, hring c hc,
            foldl_ringPush hm])
        (fun g hg => hfs g (by simp [hg]))
      obtain ⟨b', hb'⟩ := hres
      exact ⟨b', hb'.1, hb'.2.1, hb'.2.2.1, fun c hc => by
        rw [hb'.2.2.2 c hc]
        simp [channelStream, List.append_assoc]⟩

/-- C1 (amended: `max_len ≥ 1`): pushing any sequence of well-formed
frames into a fresh `SampleBuffer` leaves each channel `c`'s ring equal
to the most recent `min(pushed_c, max_len)` samples whose interleaved
index is congruent to `c` modulo the channel count, in temporal order;
in particular pushing `{channels=2, samples=[1,2,3,4]}` into an empty
2-channel buffer leaves channel 0 = `[1,3]` and channel 1 = `[2,4]`.
(The wraparound slicing of a physically split ring is treated with the
`getChannelSlices` theorems.) -/
theorem ring_correctness (C rate maxLen : ℕ) (hm : 1 ≤ maxLen) (hC : 0 < C)
    (fs : List Frame)
    (hfs : ∀ f ∈ fs, f.channels = C ∧ f.sample_rate = rate ∧ f.samples.length % C = 0) :
    (∃ b', (SampleBuffer.new C rate maxLen).pushMany fs = some b' ∧
      ∀ c, c < C →
        ((b'.buffers[c]?).getD []) = takeLast maxLen (channelStream C c fs) ∧
        ((b'.buffers[c]?).getD []).length = min (channelStream C c fs).length maxLen)
    ∧ ((SampleBuffer.new 2 44100 100).pushMany [⟨2, 44100, [1, 2, 3, 4]⟩]).map
        (fun b => (b.buffers[0]?).getD []) = some [1, 3]
    ∧ ((SampleBuffer.new 2 44100 100).pushMany [⟨2, 44100, [1, 2, 3, 4]⟩]).map
        (fun b => (b.buffers[1]?).getD []) = some [2, 4] := by
  refine ⟨?_, by decide, by decide⟩
  have hnew := pushMany_ring hm hC fs (SampleBuffer.new C rate maxLen) (fun _ => [])
    rfl rfl rfl (by simp [SampleBuffer.new]) ?_ hfs
  · obtain ⟨b', h1, _, _, h4⟩ := hnew
    refine ⟨b', h1, fun c hc => ⟨by simpa using h4 c hc, ?_⟩⟩
    have := h4 c hc
    simp at this
    rw [this, takeLast_length, Nat.min_comm]
  · intro c hc
    simp [SampleBuffer.new, List.getElem?_replicate, hc, takeLast]

/-- C1 counterexample: with `max_len = 0` the claim fails.  The source
pops the oldest element only when `len == max_len`, but a ring that has
just been pushed to has length `1 ≠ 0`, so the guard never fires again
and the ring grows without bound: after pushing one sample into a
0-capacity 1-channel buffer the ring holds `[1]`, while the claim
demands the most recent `min(1, 0) = 0` samples, i.e. `[]`. -/
theorem ring_correctness_fails_at_zero_capacity :
    ¬ (((SampleBuffer.new 1 44100 0).pushMany [⟨1, 44100, [1]⟩]).map
        (fun b => (b.buffers[0]?).getD []) =
      some (takeLast 0 (channelStream 1 0 [⟨1, 44100, [1]⟩]))) := by decide

/-- Witness for C1 at the de-interleaving example: 2 channels,
capacity 100, one frame `[1,2,3,4]`. -/
theorem ring_correctness_witness :
    (1 ≤ 100 ∧ 0 < 2 ∧
      (∀ f ∈ [Frame.mk 2 44100 [1, 2, 3, 4]],
        f.channels = 2 ∧ f.sample_rate = 44100 ∧ f.samples.length % 2 = 0))
    ∧ (∃ b', (SampleBuffer.new 2 44100 100).pushMany [⟨2, 44100, [1, 2, 3, 4]⟩] = some b' ∧
        ∀ c, c < 2 →
          ((b'.buffers[c]?).getD []) =
            takeLast 100 (channelStream 2 c [⟨2, 44100, [1, 2, 3, 4]⟩]) ∧
          ((b'.buffers[c]?).getD []).length =
            min (channelStream 2 c [⟨2, 44100, [1, 2, 3, 4]⟩]).length 100) :=
  ⟨⟨by decide, by decide, by decide⟩,
    (ring_correctness 2 44100 100 (by decide) (by decide) _ (by decide)).1⟩

/-- C2: for a period whose window still lies inside the retained window,
`get_channel` classifies the window against the two physical ring
segments exactly as specified (entirely-in-first when
`end <= first.len()`, straddling when `start < first.len() < end`,
entirely-in-second otherwise, re-based as stated), and iterating the
resulting slices — slice 0 then slice 1 — yields exactly the `l`
requested window samples of the logical ring contents in temporal
order, for every physical split of the ring. -/
theorem get_channel_slices_spec (firstSeg secondSeg : List ℚ)
    (bufLen sampleCount startNum l start : ℕ)
    (hstart : start = bufLen - (sampleCount - startNum))
    (hb : bufLen = firstSeg.length + secondSeg.length)
    (hbs : bufLen ≤ sampleCount)
    (hold : sampleCount - bufLen ≤ startNum)
    (hend : startNum + l ≤ sampleCount) :
    ∃ sl, getChannelSlices firstSeg secondSeg bufLen sampleCount startNum l = some sl ∧
      sl.1 ++ sl.2 = ((firstSeg ++ secondSeg).drop start).take l ∧
      (sl.1 ++ sl.2).length = l ∧
      (start + l ≤ firstSeg.length → sl = ((firstSeg.drop start).take l, [])) ∧
      (start < firstSeg.length → firstSeg.length < start + l →
        sl = (firstSeg.drop start, secondSeg.take (start + l - firstSeg.length))) ∧
      (firstSeg.length ≤ start →
        sl = ((secondSeg.drop (start - firstSeg.length)).take l, [])) := by
  subst hstart
  have hcs : sampleCount - startNum ≤ bufLen := by omega
  have hl : l ≤ sampleCount - startNum := by omega
  have hEb : bufLen - (sampleCount - startNum) + l ≤ bufLen := by omega
  simp only [getChannelSlices]
  rw [if_pos hcs]
  by_cases h1 : bufLen - (sampleCount - startNum) < firstSeg.length
  · by_cases h2 : bufLen - (sampleCount - startNum) + l ≤ firstSeg.length
    · -- entirely in the first segment
      rw [if_pos h1, if_pos h2]
      have hslice : rustSlice firstSeg (bufLen - (sampleCount - startNum))
          (bufLen - (sampleCount - startNum) + l) =
          some ((firstSeg.drop (bufLen - (sampleCount - startNum))).take l) := by
        unfold rustSlice
        rw [if_pos ⟨by omega, by omega⟩]
        have hES : bufLen - (sampleCount - startNum) + l -
            (bufLen - (sampleCount - startNum)) = l := by omega
        rw [hES]
      refine ⟨((firstSeg.drop (bufLen - (sampleCount - startNum))).take l, []), by
        simp [hslice], ?_, ?_, fun _ => rfl, fun _ hc => absurd hc (by omega),
        fun hc => absurd hc (by omega)⟩
      · rw [List.drop_append_of_le_length (by omega),
          List.take_append_of_le_length (by simp; omega), List.append_nil]
      · simp
        omega
    · -- straddles both segments
      rw [if_pos h1, if_neg h2]
      have hslice : rustSlice secondSeg 0
          (bufLen - (sampleCount - startNum) + l - firstSeg.length) =
          some (secondSeg.take (bufLen - (sampleCount - startNum) + l - firstSeg.length)) := by
        unfold rustSlice
        rw [if_pos ⟨by omega, by omega⟩]
        simp
      refine ⟨(firstSeg.drop (bufLen - (sampleCount - startNum)),
        secondSeg.take (bufLen - (sampleCount - startNum) + l - firstSeg.length)), by
        simp [hslice], ?_, ?_, fun hc => absurd hc (by omega), fun _ _ => rfl,
        fun hc => absurd hc (by omega)⟩
      · simp only []
        rw [List.drop_append_of_le_length (by omega)]
        generalize hm : bufLen - (sampleCount - startNum) + l - firstSeg.length = m
        have hlm : l = (firstSeg.drop (bufLen - (sampleCount - startNum))).length + m := by
          simp
          omega
        rw [hlm, List.take_append]
      · simp
        omega
  · -- entirely in the second segment
    rw [if_neg h1]
    have hslice : rustSlice secondSeg
        (bufLen - (sampleCount - startNum) - firstSeg.length)
        (bufLen - (sampleCount - startNum) + l - firstSeg.length) =
        some ((secondSeg.drop
          (bufLen - (sampleCount - startNum) - firstSeg.length)).take l) := by
      unfold rustSlice
      rw [if_pos ⟨by omega, by omega⟩]
      have hES : bufLen - (sampleCount - startNum) + l - firstSeg.length -
          (bufLen - (sampleCount - startNum) - firstSeg.length) = l := by omega
      rw [hES]
    refine ⟨((secondSeg.drop (bufLen - (sampleCount - startNum) - firstSeg.length)).take l,
      []), by simp [hslice], ?_, ?_, ?_, fun hc _ => absurd hc (by omega), fun _ => rfl⟩
    · simp only [List.append_nil]
      generalize hx : bufLen - (sampleCount - startNum) - firstSeg.length = x
      have hS : bufLen - (sampleCount - startNum) = firstSeg.length + x := by omega
      rw [hS, List.drop_append]
    · simp
      omega
    · intro hc
      have hl0 : l = 0 := by omega
      simp [hl0]

/-- Witness for C2 at a concretely wrapped ring: segments `[6,7]` and
`[8,9]`, buffer len 4, sample count 10, window `[6, 10)` — the window
straddles the physical split and iterates to `[6,7,8,9]`. -/
theorem get_channel_slices_spec_witness :
    ((0 : ℕ) = 4 - (10 - 6) ∧ (4 : ℕ) = ([6, 7] : List ℚ).length + ([8, 9] : List ℚ).length ∧
      (4 : ℕ) ≤ 10 ∧ 10 - 4 ≤ (6 : ℕ) ∧ 6 + 4 ≤ (10 : ℕ))
    ∧ (∃ sl, getChannelSlices [6, 7] [8, 9] 4 10 6 4 = some sl ∧
        sl.1 ++ sl.2 = ((([6, 7] : List ℚ) ++ [8, 9]).drop 0).take 4 ∧
        (sl.1 ++ sl.2).length = 4 ∧
        (0 + 4 ≤ ([6, 7] : List ℚ).length → sl = ((([6, 7] : List ℚ).drop 0).take 4, [])) ∧
        (0 < ([6, 7] : List ℚ).length → ([6, 7] : List ℚ).length < 0 + 4 →
          sl = (([6, 7] : List ℚ).drop 0,
                ([8, 9] : List ℚ).take (0 + 4 - ([6, 7] : List ℚ).length))) ∧
        (([6, 7] : List ℚ).length ≤ 0 →
          sl = ((([8, 9] : List ℚ).drop (0 - ([6, 7] : List ℚ).length)).take 4, []))) :=
  ⟨⟨by decide, by decide, by decide, by decide, by decide⟩,
    get_channel_slices_spec [6, 7] [8, 9] 4 10 6 4 0 (by decide) (by decide) (by decide)
      (by decide) (by decide)⟩

/-- C9: a queued `Frame` with an empty `samples` vector is an unstated
precondition violation: when the current frame is exhausted and such a
frame is dequeued with a positive `max_len`, the `assert!(start < end)`
inside `next_slice_from_current` fails, so `next_slice` — and hence
`fill_buffer` on a non-empty destination — panics. -/
theorem empty_frame_dequeue_panics (st : FrameReceiver) (f : Frame) (rest : List Frame)
    (h1 : st.cur_sample = none) (h2 : st.pending = f :: rest) (h3 : f.samples = [])
    (h4 : f.channels = st.channels) (h5 : f.sample_rate = st.sample_rate)
    (ml space : ℕ) (hml : 0 < ml) (hsp : 0 < space) :
    st.next_slice ml = SliceResult.panics ∧ st.fill_buffer space = FillResult.panics := by
  have key : ∀ m : ℕ, 0 < m → st.next_slice m = SliceResult.panics := by
    intro m hm
    simp only [FrameReceiver.next_slice, h1, h2]
    rw [if_neg (by simp [h4]), if_neg (by simp [h5])]
    simp [FrameReceiver.next_slice_from_current, h3]
  refine ⟨key ml hml, ?_⟩
  unfold FrameReceiver.fill_buffer
  obtain ⟨k, rfl⟩ : ∃ k, space = k + 1 := ⟨space - 1, by omega⟩
  simp only [fillAux]
  rw [if_neg (by omega), key (k + 1) (by omega)]

/-- Witness for C9: a receiver with one queued empty frame panics on
`next_slice(4)` and on `fill_buffer` over a 4-sample destination. -/
theorem empty_frame_dequeue_panics_witness :
    ((FrameReceiver.mk 1 2 [⟨1, 2, []⟩] false none none).cur_sample = none
      ∧ (FrameReceiver.mk 1 2 [⟨1, 2, []⟩] false none none).pending = [⟨1, 2, []⟩]
      ∧ (0 : ℕ) < 4)
    ∧ (FrameReceiver.mk 1 2 [⟨1, 2, []⟩] false none none).next_slice 4 =
        SliceResult.panics
    ∧ (FrameReceiver.mk 1 2 [⟨1, 2, []⟩] false none none).fill_buffer 4 =
        FillResult.panics :=
  ⟨⟨rfl, rfl, by decide⟩,
    (empty_frame_dequeue_panics _ ⟨1, 2, []⟩ [] rfl rfl rfl rfl rfl 4 4 (by decide)
      (by decide)).1,
    (empty_frame_dequeue_panics _ ⟨1, 2, []⟩ [] rfl rfl rfl rfl rfl 4 4 (by decide)
      (by decide)).2⟩

/-- Characterization of `FrameReceiver::next_slice` under the receiver
invariant: on an exhausted queue it reports end-of-stream (closed) or
no-data (open); otherwise it returns a non-empty prefix of the
available stream, bounded by `max_len` and by the current frame's
remainder, and consumes exactly that prefix. -/
theorem next_slice_spec (st : FrameReceiver) (hok : st.StateOK) (ml : ℕ) (hml : 0 < ml) :
    (st.availStream = [] →
      st.next_slice ml =
        (if st.closed then SliceResult.err FrameReceiverError.EndOfStream
         else SliceResult.noneAvail)) ∧
    (st.availStream ≠ [] →
      ∃ s st', st.next_slice ml = SliceResult.got s st' ∧ s ≠ [] ∧ s.length ≤ ml ∧
        s = st.availStream.take s.length ∧
        st'.availStream = st.availStream.drop s.length ∧
        st'.StateOK ∧ st'.closed = st.closed) := by
  cases hcs : st.cur_sample with
  | some i =>
      obtain ⟨f, hcf, hlt⟩ := hok.1 i hcs
      have havail : st.availStream =
          f.samples.drop i ++ st.pending.flatMap (fun g => g.samples) := by
        unfold FrameReceiver.availStream
        rw [hcf, hcs]
      have hne : st.availStream ≠ [] := by
        rw [havail]
        intro hc
        have := congrArg List.length hc
        simp at this
        omega
      refine ⟨fun h => absurd h hne, fun _ => ?_⟩
      have hred : st.next_slice ml = st.next_slice_from_current i ml := by
        simp [FrameReceiver.next_slice, hcs]
      have hstop_gt : i < min (i + ml) f.samples.length := by omega
      have hfc : st.next_slice_from_current i ml =
          SliceResult.got ((f.samples.drop i).take (min (i + ml) f.samples.length - i))
            { st with cur_sample :=
                if min (i + ml) f.samples.length < f.samples.length then
                  some (min (i + ml) f.samples.length)
                else none } := by
        unfold FrameReceiver.next_slice_from_current
        rw [hcf]
        dsimp only
        rw [if_pos hstop_gt]
      have hslen : ((f.samples.drop i).take (min (i + ml) f.samples.length - i)).length =
          min (i + ml) f.samples.length - i := by
        simp
        omega
      refine ⟨(f.samples.drop i).take (min (i + ml) f.samples.length - i),
        { st with cur_sample :=
            if min (i + ml) f.samples.length < f.samples.length then
              some (min (i + ml) f.samples.length)
            else none },
        by rw [hred, hfc], ?_, ?_, ?_, ?_, ?_, rfl⟩
      · intro hc
        rw [hc] at hslen
        simp at hslen
        omega
      · rw [hslen]
        omega
      · rw [hslen, havail, List.take_append_of_le_length (by simp; omega)]
      · rw [hslen, havail]
        unfold FrameReceiver.availStream
        dsimp only
        rw [hcf]
        by_cases hterm : min (i + ml) f.samples.length < f.samples.length
        · rw [if_pos hterm]
          dsimp only
          rw [List.drop_append_of_le_length (by simp; omega), List.drop_drop]
          have h2 : i + ((i + ml) ⊓ f.samples.length - i) =
              (i + ml) ⊓ f.samples.length := by omega
          rw [h2]
        · rw [if_neg hterm]
          dsimp only
          rw [List.drop_append_of_le_length (by simp; omega), List.drop_drop]
          have hfull : i + ((i + ml) ⊓ f.samples.length - i) = f.samples.length := by omega
          rw [hfull, List.drop_length, List.nil_append]
      · constructor
        · intro j hj
          dsimp only at hj
          by_cases hterm : min (i + ml) f.samples.length < f.samples.length
          · rw [if_pos hterm] at hj
            simp at hj
            exact ⟨f, by simpa using hcf, by omega⟩
          · rw [if_neg hterm] at hj
            simp at hj
        · intro g hg
          exact hok.2 g hg
  | none =>
      cases hp : st.pending with
      | nil =>
          have havail : st.availStream = [] := by
            unfold FrameReceiver.availStream
            rw [hcs, hp]
            cases st.cur_frame <;> simp
          refine ⟨fun _ => ?_, fun h => absurd havail h⟩
          simp [FrameReceiver.next_slice, hcs, hp]
      | cons g rest =>
          obtain ⟨hgne, hgch, hgsr⟩ := hok.2 g (by rw [hp]; simp)
          have hglen : 0 < g.samples.length := List.length_pos.mpr hgne
          have havail : st.availStream =
              g.samples ++ rest.flatMap (fun h => h.samples) := by
            unfold FrameReceiver.availStream
            rw [hcs, hp]
            cases st.cur_frame <;> simp
          have hne : st.availStream ≠ [] := by
            rw [havail]
            simp [hgne]
          refine ⟨fun h => absurd h hne, fun _ => ?_⟩
          have hstop_gt : 0 < min (0 + ml) g.samples.length := by
            rw [lt_min_iff]
            exact ⟨by omega, hglen⟩
          have hred : st.next_slice ml =
              SliceResult.got (g.samples.take (min (0 + ml) g.samples.length))
                { st with pending := rest, cur_frame := some g, cur_sample := if min (0 + ml) g.samples.length < g.samples.length then some (min (0 + ml) g.samples.length) else none } := by
            simp only [FrameReceiver.next_slice, hcs, hp]
            rw [if_neg (by simp [hgch]), if_neg (by simp [hgsr])]
            unfold FrameReceiver.next_slice_from_current
            dsimp only
            rw [if_pos hstop_gt]
            simp
          have hslen : (g.samples.take (min (0 + ml) g.samples.length)).length =
              min (0 + ml) g.samples.length := by
            simp
          refine ⟨g.samples.take (min (0 + ml) g.samples.length),
            { st with pending := rest, cur_frame := some g, cur_sample := if min (0 + ml) g.samples.length < g.samples.length then some (min (0 + ml) g.samples.length) else none },
            hred, ?_, ?_, ?_, ?_, ?_, rfl⟩
          · intro hc
            rw [hc] at hslen
            simp at hslen
            omega
          · rw [hslen]
            omega
          · rw [hslen, havail, List.take_append_of_le_length (by omega)]
          · rw [hslen, havail]
            unfold FrameReceiver.availStream
            dsimp only
            by_cases hterm : min (0 + ml) g.samples.length < g.samples.length
            · rw [if_pos hterm]
              dsimp only
              rw [List.drop_append_of_le_length (by omega)]
            · rw [if_neg hterm]
              dsimp only
              have hfull : (0 + ml) ⊓ g.samples.length = g.samples.length := by omega
              rw [hfull, List.drop_append_of_le_length (by omega), List.drop_length,
                List.nil_append]
          · constructor
            · intro j hj
              dsimp only at hj
              by_cases hterm : min (0 + ml) g.samples.length < g.samples.length
              · rw [if_pos hterm] at hj
                simp at hj
                exact ⟨g, by simp, by omega⟩
              · rw [if_neg hterm] at hj
                simp at hj
            · intro h hh
              dsimp only at hh
              exact hok.2 h (by rw [hp]; simp [hh])

/-- The fill loop invariant: with enough fuel (`space < fuel`) and a
well-formed receiver, `fillAux` copies the prefix of the available
stream bounded by the remaining space, returns an end-of-stream error
when the stream runs dry on a closed channel, and returns the whole
available stream when it runs dry on an open channel. -/
theorem fillAux_spec : ∀ (fuel : ℕ) (st : FrameReceiver) (space : ℕ), space < fuel →
    st.StateOK →
    (space ≤ st.availStream.length →
      ∃ st', fillAux fuel st space = FillResult.ok (st.availStream.take space) st') ∧
    (st.availStream.length < space → st.closed = true →
      fillAux fuel st space = FillResult.err FrameReceiverError.EndOfStream) ∧
    (st.availStream.length < space → st.closed = false →
      ∃ st', fillAux fuel st space = FillResult.ok st.availStream st')
  | 0, _, _, h, _ => absurd h (by omega)
  | fuel + 1, st, space, hf, hok => by
      by_cases hsp : space = 0
      · subst hsp
        exact ⟨fun _ => ⟨st, by simp [fillAux]⟩,
          fun h0 _ => absurd h0 (by omega), fun h0 _ => absurd h0 (by omega)⟩
      · have hsp' : 0 < space := by omega
        by_cases hav : st.availStream = []
        · have hns := (next_slice_spec st hok space hsp').1 hav
          have hlen0 : st.availStream.length = 0 := by rw [hav]; rfl
          refine ⟨fun hle => absurd hle (by omega), fun _ hcl => ?_, fun _ hcl => ?_⟩
          · simp only [fillAux]
            rw [if_neg hsp, hns, if_pos hcl]
          · refine ⟨st, ?_⟩
            simp only [fillAux]
            rw [if_neg hsp, hns, if_neg (by simp [hcl]), hav]
        · obtain ⟨s, st', hgot, hsne, hslen, hpref, hdrop, hok', hcl'⟩ :=
            (next_slice_spec st hok space hsp').2 hav
          have hslt : 0 < s.length := List.length_pos.mpr hsne
          have hsle_avail : s.length ≤ st.availStream.length := by
            have := congrArg List.length hpref
            simp at this
            omega
          have heq : fillAux (fuel + 1) st space =
              match fillAux fuel st' (space - s.length) with
              | FillResult.ok w st'' => FillResult.ok (s ++ w) st''
              | r => r := by
            simp only [fillAux]
            rw [if_neg hsp, hgot]
          have hrec := fillAux_spec fuel st' (space - s.length) (by omega) hok'
          have hdlen : st'.availStream.length = st.availStream.length - s.length := by
            rw [hdrop]
            simp
          refine ⟨fun hle => ?_, fun hgt hcl => ?_, fun hgt hcl => ?_⟩
          · obtain ⟨st'', hok2⟩ := hrec.1 (by omega)
            refine ⟨st'', ?_⟩
            rw [heq, hok2]
            have hsplit : st.availStream.take space =
                s ++ (st'.availStream.take (space - s.length)) := by
              conv_lhs => rw [show space = s.length + (space - s.length) by omega]
              rw [List.take_add, ← hpref, ← hdrop]
            rw [hsplit]
          · rw [heq, hrec.2.1 (by omega) (by rw [hcl']; exact hcl)]
          · obtain ⟨st'', hok3⟩ := hrec.2.2 (by omega) (by rw [hcl']; exact hcl)
            refine ⟨st'', ?_⟩
            rw [heq, hok3]
            have hall : st.availStream = s ++ st'.availStream := by
              rw [hdrop]
              conv_lhs => rw [← List.take_append_drop s.length st.availStream]
              rw [← hpref]
            rw [hall]

/-- C8: `fill_buffer(dst)` copies queued samples into the destination in
stream order (finishing the partially-consumed current frame first) and
returns `Ok(k)` with `k ≤ dst.len()`: `k = dst.len()` when enough
samples are queued (the copied data is the `dst.len()`-prefix of the
available stream), and `k < dst.len()` — a count, not an error — when
the stream runs dry on a still-open channel (the whole available stream
is copied); when the stream runs dry on a closed channel it returns the
distinct `FrameReceiverError::EndOfStream` instead of a count. -/
theorem fill_buffer_spec (st : FrameReceiver) (space : ℕ) (hok : st.StateOK) :
    (space ≤ st.availStream.length →
      ∃ st', st.fill_buffer space = FillResult.ok (st.availStream.take space) st' ∧
        (st.availStream.take space).length = space) ∧
    (st.availStream.length < space → st.closed = true →
      st.fill_buffer space = FillResult.err FrameReceiverError.EndOfStream) ∧
    (st.availStream.length < space → st.closed = false →
      ∃ st', st.fill_buffer space = FillResult.ok st.availStream st' ∧
        st.availStream.length < space) := by
  have h := fillAux_spec (space + 1) st space (by omega) hok
  unfold FrameReceiver.fill_buffer
  refine ⟨fun hle => ?_, h.2.1, fun hgt hcl => ?_⟩
  · obtain ⟨st', hst'⟩ := h.1 hle
    exact ⟨st', hst', by simp; omega⟩
  · obtain ⟨st', hst'⟩ := h.2.2 hgt hcl
    exact ⟨st', hst', hgt⟩

/-- Witness for C8: a receiver with three queued 2-sample frames fills a
5-slot destination with the first five samples in stream order, and a
2-slot destination then underfills with the single remaining sample; on
a closed empty channel it reports end-of-stream. -/
theorem fill_buffer_spec_witness :
    ((FrameReceiver.mk 1 2 [⟨1, 2, [1, 2]⟩, ⟨1, 2, [3, 4]⟩, ⟨1, 2, [5, 6]⟩]
        false none none).StateOK
      ∧ (5 : ℕ) ≤ (FrameReceiver.mk 1 2 [⟨1, 2, [1, 2]⟩, ⟨1, 2, [3, 4]⟩, ⟨1, 2, [5, 6]⟩]
        false none none).availStream.length)
    ∧ (∃ st', (FrameReceiver.mk 1 2 [⟨1, 2, [1, 2]⟩, ⟨1, 2, [3, 4]⟩, ⟨1, 2, [5, 6]⟩]
          false none none).fill_buffer 5 =
        FillResult.ok (((FrameReceiver.mk 1 2 [⟨1, 2, [1, 2]⟩, ⟨1, 2, [3, 4]⟩,
          ⟨1, 2, [5, 6]⟩] false none none).availStream).take 5) st' ∧
        (((FrameReceiver.mk 1 2 [⟨1, 2, [1, 2]⟩, ⟨1, 2, [3, 4]⟩,
          ⟨1, 2, [5, 6]⟩] false none none).availStream).take 5).length = 5)
    ∧ (FrameReceiver.mk 1 2 [] true none none).fill_buffer 3 =
        FillResult.err FrameReceiverError.EndOfStream := by
  have hok1 : (FrameReceiver.mk 1 2 [⟨1, 2, [1, 2]⟩, ⟨1, 2, [3, 4]⟩, ⟨1, 2, [5, 6]⟩]
      false none none).StateOK := by
    constructor
    · intro i h
      exact absurd h (by simp)
    · decide
  have hok2 : (FrameReceiver.mk 1 2 [] true none none).StateOK := by
    constructor
    · intro i h
      exact absurd h (by simp)
    · decide
  refine ⟨⟨hok1, by decide⟩, (fill_buffer_spec _ 5 hok1).1 (by decide),
    (fill_buffer_spec _ 3 hok2).2.1 (by decide) (by decide)⟩

/-- A successful `PeriodBuffer::next` leaves the sample buffer and the
configured period length untouched and returns a period of exactly
`period_len` samples. -/
theorem next_some_inv (pb : PeriodBuffer) (p : Period) (pb' : PeriodBuffer)
    (h : pb.next = some (p, pb')) :
    pb'.buffer = pb.buffer ∧ pb'.period_len = pb.period_len ∧ p.len = pb.period_len := by
  unfold PeriodBuffer.next at h
  by_cases hn : pb.has_next = true
  · rw [if_pos hn] at h
    simp only [Option.some.injEq, Prod.mk.injEq] at h
    obtain ⟨hp, hpb⟩ := h
    subst hp
    subst hpb
    exact ⟨rfl, rfl, rfl⟩
  · rw [if_neg hn] at h
    exact absurd h (by simp)

/-- A successful `PeriodBuffer::push` preserves the windowing
configuration. -/
theorem push_period_len (pb : PeriodBuffer) (f : Frame) (pb' : PeriodBuffer)
    (h : pb.push f = some pb') :
    pb'.period_len = pb.period_len ∧ pb'.period_stride = pb.period_stride := by
  unfold PeriodBuffer.push at h
  cases hb : pb.buffer.push f with
  | none => rw [hb] at h; exact absurd h (by simp)
  | some b =>
      rw [hb, Option.some_bind] at h
      by_cases hc : pb.next_period_end - pb.period_len < b.oldest_sample_index
      · rw [if_pos hc] at h
        exact absurd h (by simp)
      · rw [if_neg hc] at h
        simp only [Option.some.injEq] at h
        subst h
        exact ⟨rfl, rfl⟩

/-- With a positive period length and sample rate, a period's start
time differs from its end time. -/
theorem start_time_ne_end_time (p : Period) (rate : ℕ) (hl : 0 < p.len) (hr : 0 < rate) :
    p.start_time rate ≠ p.end_time rate := by
  unfold Period.start_time Period.end_time Instant.from_sample_num
  intro h
  have h2 : (p.start_sample_num : ℚ) / rate = ((p.start_sample_num + p.len : ℕ) : ℚ) / rate :=
    congrArg Instant.seconds h
  have hc : ((rate : ℚ)) ≠ 0 := Nat.cast_ne_zero.mpr (by omega)
  rw [div_eq_div_iff hc hc] at h2
  have h3 : (p.start_sample_num : ℚ) = ((p.start_sample_num + p.len : ℕ) : ℚ) :=
    mul_right_cancel₀ hc h2
  have h4 : p.start_sample_num = p.start_sample_num + p.len := Nat.cast_injective h3
  omega

/-- Every `RMSLevels` message appended by the executor's drain loop
carries the start time of the period whose channel RMS values it
reports. -/
theorem drainLoop_spec (polarFn : List ℚ → List (ℚ × ℚ)) (sqrtFn : ℚ → ℚ) (width : ℕ) :
    ∀ (fuel : ℕ) (pb : PeriodBuffer) (acc : List Message) (pb2 : PeriodBuffer)
      (msgs : List Message),
      drainLoop polarFn sqrtFn width fuel pb acc = some (pb2, msgs) →
      pb2.buffer = pb.buffer ∧ pb2.period_len = pb.period_len ∧
      ∀ m ∈ msgs, m ∈ acc ∨
        ∀ r, m = Message.RMSLevels r →
          ∃ p chans, p.len = pb.period_len ∧
            Period.channelsOf p pb.buffer = some chans ∧
            r.values = chans.map (fun c => c.rms sqrtFn) ∧
            r.time = p.start_time pb.buffer.sample_rate
  | 0, pb, acc, pb2, msgs, h => by
      simp only [drainLoop, Option.some.injEq, Prod.mk.injEq] at h
      obtain ⟨h1, h2⟩ := h
      subst h1
      subst h2
      exact ⟨rfl, rfl, fun m hm => Or.inl hm⟩
  | fuel + 1, pb, acc, pb2, msgs, h => by
      simp only [drainLoop] at h
      cases hn : pb.next with
      | none =>
          rw [hn] at h
          dsimp only at h
          simp only [Option.some.injEq, Prod.mk.injEq] at h
          obtain ⟨h1, h2⟩ := h
          subst h1
          subst h2
          exact ⟨rfl, rfl, fun m hm => Or.inl hm⟩
      | some pr =>
          obtain ⟨p, pb'⟩ := pr
          obtain ⟨hinv1, hinv2, hinv3⟩ := next_some_inv pb p pb' hn
          rw [hn] at h
          dsimp only at h
          cases hft : FFT.transform polarFn width pb'.buffer p with
          | none => rw [hft] at h; exact absurd h (by cases Period.channelsOf p pb'.buffer <;> simp)
          | some fftRes =>
              cases hch : Period.channelsOf p pb'.buffer with
              | none => rw [hft, hch] at h; exact absurd h (by simp)
              | some chans =>
                  rw [hft, hch] at h
                  have ih := drainLoop_spec polarFn sqrtFn width fuel pb' _ pb2 msgs h
                  refine ⟨ih.1.trans hinv1, ih.2.1.trans hinv2, fun m hm => ?_⟩
                  rcases ih.2.2 m hm with hin | hP
                  · rcases List.mem_append.mp hin with ha | hb
                    · exact Or.inl ha
                    · simp only [List.mem_cons, List.mem_singleton] at hb
                      rcases hb with hb | hb | hb
                      · subst hb
                        exact Or.inr fun r hr => absurd hr (by simp)
                      · subst hb
                        refine Or.inr fun r hr => ?_
                        simp only [Message.RMSLevels.injEq] at hr
                        subst hr
                        exact ⟨p, chans, hinv3, by rw [← hinv1]; exact hch, rfl,
                          by rw [← hinv1]⟩
                      · exact absurd hb (by simp)
                  · refine Or.inr ?_
                    rw [← hinv1, ← hinv2]
                    exact hP

/-- C10: every `RMSLevels` message produced by `Executor::process` for a
period carries `time = start_time` of that period
(`start_sample_num / sample_rate`) — not its end time (the two differ
whenever the period and the sample rate are non-trivial) — even though
the `RMSLevels.time` field is documented as "the end time of the
measurement period". -/
theorem executor_rms_time (polarFn : List ℚ → List (ℚ × ℚ)) (sqrtFn : ℚ → ℚ)
    (width : ℕ) (pb : PeriodBuffer) (f : Frame) (pb2 : PeriodBuffer) (msgs : List Message)
    (h : Executor.process polarFn sqrtFn width pb f = some (pb2, msgs)) :
    ∀ m ∈ msgs, ∀ r, m = Message.RMSLevels r →
      ∃ p chans, p.len = pb.period_len ∧
        Period.channelsOf p pb2.buffer = some chans ∧
        r.values = chans.map (fun c => c.rms sqrtFn) ∧
        r.time = p.start_time pb2.buffer.sample_rate ∧
        r.time = Instant.from_sample_num p.start_sample_num pb2.buffer.sample_rate ∧
        (0 < p.len → 0 < pb2.buffer.sample_rate →
          r.time ≠ p.end_time pb2.buffer.sample_rate) := by
  unfold Executor.process at h
  cases hp : pb.push f with
  | none => rw [hp] at h; exact absurd h (by simp)
  | some pbp =>
      rw [hp, Option.some_bind] at h
      have hd := drainLoop_spec polarFn sqrtFn width _ pbp [] pb2 msgs h
      have hlen : pbp.period_len = pb.period_len := (push_period_len pb f pbp hp).1
      intro m hm r hr
      rcases hd.2.2 m hm with hin | hP
      · exact absurd hin (List.not_mem_nil m)
      · obtain ⟨p, chans, h1, h2, h3, h4⟩ := hP r hr
        refine ⟨p, chans, h1.trans hlen, by rw [hd.1]; exact h2, h3, by rw [hd.1]; exact h4,
          by rw [hd.1]; exact h4, fun hlp hrp => ?_⟩
        rw [hd.1, h4]
        exact start_time_ne_end_time p pbp.buffer.sample_rate hlp (by rw [← hd.1]; exact hrp)

/-- Witness for C10: a 1-channel executor with an 8192-free window of 4
samples and stride 2, fed `[1,2,3,4]`, emits one FFT message and one
RMS message; the RMS message's time is the period's start time `0/44100`
and differs from its end time `4/44100`. -/
theorem executor_rms_time_witness :
    (Executor.process (fun _ => []) id 4 ⟨SampleBuffer.new 1 44100 100, 4, 2, 4⟩
        ⟨1, 44100, [1, 2, 3, 4]⟩ =
      some (⟨⟨100, 1, 44100, [[1, 2, 3, 4]], 4⟩, 4, 2, 6⟩,
        [Message.FFTResult ⟨Instant.from_sample_num 4 44100, 4, 44100,
          [PolarFFT.into_folded ⟨[], 44100⟩]⟩,
         Message.RMSLevels ⟨Instant.from_sample_num 0 44100,
          [ChannelPeriod.rms id ⟨([1, 2, 3, 4], []), 44100, 0, 4⟩]⟩]))
    ∧ ∀ m ∈ [Message.FFTResult ⟨Instant.from_sample_num 4 44100, 4, 44100,
          [PolarFFT.into_folded ⟨[], 44100⟩]⟩,
         Message.RMSLevels ⟨Instant.from_sample_num 0 44100,
          [ChannelPeriod.rms id ⟨([1, 2, 3, 4], []), 44100, 0, 4⟩]⟩],
        ∀ r, m = Message.RMSLevels r →
        ∃ p chans, p.len = (4 : ℕ) ∧
          Period.channelsOf p (SampleBuffer.mk 100 1 44100 [[1, 2, 3, 4]] 4) = some chans ∧
          r.values = chans.map (fun c => c.rms id) ∧
          r.time = p.start_time 44100 ∧
          r.time = Instant.from_sample_num p.start_sample_num 44100 ∧
          (0 < p.len → 0 < (44100 : ℕ) →
            r.time ≠ p.end_time 44100) :=
  ⟨rfl, executor_rms_time (fun _ => []) id 4 ⟨SampleBuffer.new 1 44100 100, 4, 2, 4⟩
    ⟨1, 44100, [1, 2, 3, 4]⟩ _ _ rfl⟩
